import Mathlib

/-!
Verification development for the Arcano sprint manager
(`scripts/sprint_manager.py`).  The Python source is shallowly embedded:
file contents and task texts are `List Char`, the in-memory task store is a
list of records, filesystem inputs (directory listings, file contents) are
explicit parameters, and every side effect (JSON save, Markdown patch) is
recorded in the returned value.
-/

namespace Arcano

/-- Characters of Python's `\s` class (and of `str.strip`) that can occur in
the inputs we model: the six ASCII whitespace characters together with the
further one-byte code points Python treats as whitespace.  (Exotic
multi-byte Unicode whitespace is not modelled.) -/
def pySpace (c : Char) : Bool :=
  c = ' ' || c = '\t' || c = '\n' || c = '\r' || c = '\x0b' || c = '\x0c' ||
  c = '\x1c' || c = '\x1d' || c = '\x1e' || c = '\x1f' || c = '\x85' || c = '\xa0'

/-- Split a string at every `'\n'`, like Python `content.split('\n')`:
`n` newlines give `n + 1` chunks, none of which contains `'\n'`. -/
def splitNl : List Char → List (List Char)
  | [] => [[]]
  | c :: rest =>
    if c = '\n' then [] :: splitNl rest
    else
      match splitNl rest with
      | l :: ls => (c :: l) :: ls
      | [] => [[c]]

/-- Re-join chunks with `'\n'`; left inverse of `splitNl`. -/
def joinNl : List (List Char) → List Char
  | [] => []
  | [l] => l
  | l :: ls => l ++ '\n' :: joinNl ls

/-- Python text-mode reading with `newline=None` (the source always opens
files as `open(path, 'r', encoding='utf-8')`) translates `"\r\n"` and
`"\r"` to `"\n"` before the program sees the content (universal newlines). -/
def univNewlines : List Char → List Char
  | [] => []
  | '\r' :: '\n' :: rest => '\n' :: univNewlines rest
  | '\r' :: rest => '\n' :: univNewlines rest
  | c :: rest => c :: univNewlines rest

/-- Python text-mode writing with `newline=None` translates every `'\n'`
to `os.linesep` (`"\n"` on POSIX, `"\r\n"` on Windows). -/
def writeNl (linesep : List Char) : List Char → List Char
  | [] => []
  | '\n' :: rest => linesep ++ writeNl linesep rest
  | c :: rest => c :: writeNl linesep rest

/-- `'x' if new_status else ' '` (line 190 of `sprint_manager.py`). -/
def statusMark (newStatus : Bool) : Char := if newStatus then 'x' else ' '

/-- The remainder of a checklist line after its checkbox.  A line has a
label exactly when, after its (maximal) whitespace indentation, it reads
`- [c] rest` with `c ∈ ' '/'x'`; the label is `rest`, the whole remainder
of the line. -/
def lineLabel (l : List Char) : Option (List Char) :=
  match l.dropWhile pySpace with
  | '-' :: ' ' :: '[' :: c :: ']' :: ' ' :: rest =>
    if c = ' ' || c = 'x' then some rest else none
  | _ => none

/-- One attempt of `update_markdown_task`'s pattern
`(\r?\n|\A)(\s*)- \[([ x])\] esc(T)(\r?\n|\Z)` (line 187) at a line of the
(universal-newline translated, hence `'\r'`-free) content: the groups force
the line to consist of whitespace indentation, then `- [c] ` with
`c ∈ ' '/'x'`, then exactly `T`, followed immediately by the line's
terminator (`\n`, or end of file).  Since `re.escape` makes `T` literal,
this is equivalent to the line's label being exactly `T`. -/
def lineMatch (T l : List Char) : Bool :=
  match l.dropWhile pySpace with
  | '-' :: ' ' :: '[' :: c :: ']' :: ' ' :: rest =>
    (c = ' ' || c = 'x') && rest = T
  | _ => false

/-- The replacement `\1\2- [mark] T\4` (line 191) applied to a matched
line: the indentation (`\2`) is kept, the checkbox marker is replaced, and
the task text is re-inserted verbatim (for `T` free of `'\\'`,
`re.sub`'s template-escape processing inserts `T` unchanged). -/
def setLineMark (mark : Char) (T l : List Char) : List Char :=
  l.takeWhile pySpace ++ '-' :: ' ' :: '[' :: mark :: ']' :: ' ' :: T

/-- Line-by-line effect of the global `re.sub` at line 193, derived from
the pattern's anchoring: a line is replaced exactly when it matches and the
immediately preceding line was not itself replaced.  (A replaced line's
match consumes the following line's leading `\n` — group `\4` — as its own
terminator, and the pattern requires group `\1` (`\r?\n|\A`) before the
indentation, so directly adjacent matching lines alternate; a match is
consumed, and so blocks its successor, even when the rewritten text is
identical to the original.) -/
def patchAux (T : List Char) (mark : Char) : Bool → List (List Char) → List (List Char)
  | _, [] => []
  | blocked, l :: ls =>
    if !blocked && lineMatch T l then
      setLineMark mark T l :: patchAux T mark true ls
    else
      l :: patchAux T mark false ls

/-- `updated_content = re.sub(pattern, replacement, content)` (line 193)
on universal-newline translated content, for a task text free of `'\n'`
and `'\\'`. -/
def patchContent (T : List Char) (mark : Char) (content : List Char) : List Char :=
  joinNl (patchAux T mark false (splitNl content))

/-- `update_markdown_task` (lines 172-203) on in-memory content: build the
updated content; if it equals the original, report failure (`False`,
"task not found", no write, lines 195-197); otherwise return the content
to be written (`True`, lines 199-203). -/
def update_markdown_task (T : List Char) (newStatus : Bool) (content : List Char) :
    Option (List Char) :=
  if patchContent T (statusMark newStatus) content = content then none
  else some (patchContent T (statusMark newStatus) content)

/-- `update_markdown_task` at the file level: the file's bytes are read in
universal-newline mode, patched, and — only on success — written back with
every `'\n'` rendered as the platform's `os.linesep`.  `none` means the
function returned `False` and the file was not written. -/
def update_markdown_file (linesep T : List Char) (newStatus : Bool)
    (fileBytes : List Char) : Option (List Char) :=
  (update_markdown_task T newStatus (univNewlines fileBytes)).map (writeNl linesep)

theorem splitNl_ne_nil (s : List Char) : splitNl s ≠ [] := by
  match s with
  | [] => simp [splitNl]
  | c :: rest =>
    rw [splitNl]
    split
    · simp
    · split <;> simp_all

theorem joinNl_splitNl (s : List Char) : joinNl (splitNl s) = s := by
  induction s with
  | nil => rfl
  | cons c rest ih =>
    rw [splitNl]
    split
    · rename_i hc
      subst hc
      have h := splitNl_ne_nil rest
      match hs : splitNl rest, h with
      | l :: ls, _ =>
        rw [hs] at ih
        match ls with
        | [] => simpa [joinNl] using ih
        | _ :: _ => simpa [joinNl] using ih
    · have h := splitNl_ne_nil rest
      match hs : splitNl rest, h with
      | l :: ls, _ =>
        rw [hs] at ih
        match ls with
        | [] => simpa [joinNl] using ih
        | _ :: _ => simpa [joinNl] using ih

theorem not_mem_of_mem_splitNl {s : List Char} {l : List Char}
    (h : l ∈ splitNl s) : '\n' ∉ l := by
  induction s generalizing l with
  | nil =>
    simp [splitNl] at h
    simp [h]
  | cons c rest ih =>
    rw [splitNl] at h
    split at h
    · rcases List.mem_cons.1 h with h1 | h1
      · simp [h1]
      · exact ih h1
    · rename_i hc
      have hne := splitNl_ne_nil rest
      match hs : splitNl rest, hne with
      | a :: as, _ =>
        rw [hs] at h ih
        rcases List.mem_cons.1 h with h1 | h1
        · subst h1
          intro hmem
          rcases List.mem_cons.1 hmem with h2 | h2
          · exact hc h2.symm
          · exact (ih (List.mem_cons_self a as)) h2
        · exact ih (List.mem_cons.2 (Or.inr h1))

/-- `splitNl` of a newline-free chunk followed by `'\n'` peels that chunk. -/
theorem splitNl_chunk {l : List Char} (hl : '\n' ∉ l) (s : List Char) :
    splitNl (l ++ '\n' :: s) = l :: splitNl s := by
  induction l with
  | nil => simp [splitNl]
  | cons c cs ih =>
    have hc : c ≠ '\n' := fun h => hl (h ▸ List.mem_cons_self c cs)
    have hcs : '\n' ∉ cs := fun h => hl (List.mem_cons.2 (Or.inr h))
    rw [List.cons_append, splitNl, if_neg hc, ih hcs]

theorem splitNl_no_nl {l : List Char} (hl : '\n' ∉ l) : splitNl l = [l] := by
  induction l with
  | nil => rfl
  | cons c cs ih =>
    have hc : c ≠ '\n' := fun h => hl (h ▸ List.mem_cons_self c cs)
    have hcs : '\n' ∉ cs := fun h => hl (List.mem_cons.2 (Or.inr h))
    rw [splitNl, if_neg hc, ih hcs]

theorem splitNl_joinNl {ls : List (List Char)} (h : ∀ l ∈ ls, '\n' ∉ l)
    (hne : ls ≠ []) : splitNl (joinNl ls) = ls := by
  induction ls with
  | nil => exact absurd rfl hne
  | cons l ls ih =>
    match ls with
    | [] =>
      rw [joinNl]
      exact splitNl_no_nl (h l (List.mem_cons_self l []))
    | a :: as =>
      have hj : joinNl (l :: a :: as) = l ++ '\n' :: joinNl (a :: as) := rfl
      rw [hj, splitNl_chunk (h l (List.mem_cons_self l _))]
      rw [ih (fun x hx => h x (List.mem_cons.2 (Or.inr hx))) (List.cons_ne_nil a as)]

theorem univNewlines_cons_of_ne {c : Char} (hc : c ≠ '\r') (rest : List Char) :
    univNewlines (c :: rest) = c :: univNewlines rest := by
  rw [univNewlines.eq_def]
  split <;> simp_all

theorem univNewlines_of_no_cr {s : List Char} (h : '\r' ∉ s) : univNewlines s = s := by
  induction s with
  | nil => rfl
  | cons c rest ih =>
    have hc : c ≠ '\r' := fun hh => h (hh ▸ List.mem_cons_self c rest)
    have hr : '\r' ∉ rest := fun hh => h (List.mem_cons.2 (Or.inr hh))
    rw [univNewlines_cons_of_ne hc, ih hr]

theorem writeNl_cons_of_ne {c : Char} (ls : List Char) (hc : c ≠ '\n')
    (rest : List Char) : writeNl ls (c :: rest) = c :: writeNl ls rest := by
  rw [writeNl.eq_def]
  split <;> simp_all

theorem writeNl_lf (s : List Char) : writeNl ['\n'] s = s := by
  induction s with
  | nil => rfl
  | cons c rest ih =>
    by_cases hc : c = '\n'
    · subst hc
      show ['\n'] ++ writeNl ['\n'] rest = '\n' :: rest
      simp [ih]
    · rw [writeNl_cons_of_ne _ hc, ih]

theorem lineMatch_iff_label {T l : List Char} :
    lineMatch T l = true ↔ lineLabel l = some T := by
  unfold lineMatch lineLabel
  split
  · rename_i c rest heq
    by_cases hc : (c = ' ' || c = 'x') = true
    · simp [hc]
    · simp [hc]
  · simp

theorem lineMatch_decomp {T l : List Char} (h : lineMatch T l = true) :
    ∃ w c, (∀ a ∈ w, pySpace a = true) ∧ (c = ' ' ∨ c = 'x') ∧
      l = w ++ '-' :: ' ' :: '[' :: c :: ']' :: ' ' :: T ∧
      ∀ m, setLineMark m T l = w ++ '-' :: ' ' :: '[' :: m :: ']' :: ' ' :: T := by
  unfold lineMatch at h
  split at h
  · rename_i c rest heq
    simp only [Bool.and_eq_true] at h
    obtain ⟨hc, hrest⟩ := h
    have hrest' : rest = T := by simpa using hrest
    refine ⟨l.takeWhile pySpace, c, ?_, ?_, ?_, ?_⟩
    · intro a ha; exact List.mem_takeWhile_imp ha
    · simp only [Bool.or_eq_true, decide_eq_true_eq] at hc
      exact hc
    · conv_lhs => rw [← List.takeWhile_append_dropWhile pySpace l]
      rw [heq, hrest']
    · intro m; rfl
  · exact absurd h (by simp)

theorem lineMatch_of_label_ne {T l : List Char} (h : lineLabel l ≠ some T) :
    lineMatch T l = false := by
  cases hm : lineMatch T l with
  | false => rfl
  | true => exact absurd (lineMatch_iff_label.1 hm) h

/-- A label that strictly extends `T` is not `T`, hence its line never
matches the pattern built for `T`. -/
theorem lineMatch_of_strict_extension {T l s : List Char}
    (hlab : lineLabel l = some (T ++ s)) (hs : s ≠ []) :
    lineMatch T l = false := by
  apply lineMatch_of_label_ne
  rw [hlab]
  intro hcontra
  have h1 : T ++ s = T := by simpa using hcontra
  have h2 : (T ++ s).length = T.length := by rw [h1]
  simp only [List.length_append] at h2
  have h3 : s.length = 0 := by omega
  exact hs (List.eq_nil_of_length_eq_zero h3)

theorem patchAux_length (T : List Char) (m : Char) :
    ∀ (b : Bool) (ls : List (List Char)), (patchAux T m b ls).length = ls.length := by
  intro b ls
  induction ls generalizing b with
  | nil => rfl
  | cons l ls ih =>
    rw [patchAux]
    split <;> simp [ih]

theorem patchAux_getElem? (T : List Char) (m : Char) :
    ∀ (b : Bool) (ls : List (List Char)) (i : Nat),
      (patchAux T m b ls)[i]? = ls[i]? ∨
      ∃ l, ls[i]? = some l ∧ lineMatch T l = true ∧
        (patchAux T m b ls)[i]? = some (setLineMark m T l) := by
  intro b ls
  induction ls generalizing b with
  | nil => intro i; left; rfl
  | cons l ls ih =>
    intro i
    rw [patchAux]
    by_cases hb : (!b && lineMatch T l) = true
    · rw [if_pos hb]
      have hbm : lineMatch T l = true := by
        simp only [Bool.and_eq_true] at hb
        exact hb.2
      cases i with
      | zero =>
        right
        exact ⟨l, by simp, hbm, by simp⟩
      | succ n => simpa using ih true n
    · rw [if_neg hb]
      cases i with
      | zero => left; simp
      | succ n => simpa using ih false n

theorem patchAux_of_no_match {T : List Char} {m : Char} {ls : List (List Char)}
    (h : ∀ l ∈ ls, lineMatch T l = false) : ∀ b, patchAux T m b ls = ls := by
  induction ls with
  | nil => intro b; rfl
  | cons l ls ih =>
    intro b
    rw [patchAux]
    have hl : lineMatch T l = false := h l (List.mem_cons_self l ls)
    rw [if_neg (by simp [hl])]
    rw [ih (fun x hx => h x (List.mem_cons.2 (Or.inr hx))) false]

theorem mem_patchAux {T : List Char} {m : Char} :
    ∀ {b : Bool} {ls : List (List Char)} {l : List Char}, l ∈ patchAux T m b ls →
      l ∈ ls ∨ ∃ x ∈ ls, lineMatch T x = true ∧ l = setLineMark m T x := by
  intro b ls
  induction ls generalizing b with
  | nil => intro l h; exact absurd h (List.not_mem_nil l)
  | cons a as ih =>
    intro l h
    rw [patchAux] at h
    split at h
    · rcases List.mem_cons.1 h with h1 | h1
      · rename_i hb
        have hbm : lineMatch T a = true := by
          simp only [Bool.and_eq_true] at hb
          exact hb.2
        exact Or.inr ⟨a, List.mem_cons_self a as, hbm, h1⟩
      · rcases ih h1 with h2 | ⟨x, hx, hm2, he⟩
        · exact Or.inl (List.mem_cons.2 (Or.inr h2))
        · exact Or.inr ⟨x, List.mem_cons.2 (Or.inr hx), hm2, he⟩
    · rcases List.mem_cons.1 h with h1 | h1
      · exact Or.inl (h1 ▸ List.mem_cons_self a as)
      · rcases ih h1 with h2 | ⟨x, hx, hm2, he⟩
        · exact Or.inl (List.mem_cons.2 (Or.inr h2))
        · exact Or.inr ⟨x, List.mem_cons.2 (Or.inr hx), hm2, he⟩

theorem setLineMark_no_nl {m : Char} {T l : List Char} (hm : m ≠ '\n')
    (hT : '\n' ∉ T) (hl : '\n' ∉ l) : '\n' ∉ setLineMark m T l := by
  unfold setLineMark
  intro hmem
  rcases List.mem_append.1 hmem with h1 | h1
  · have h2 := List.takeWhile_append_dropWhile pySpace l
    exact hl (h2 ▸ List.mem_append.2 (Or.inl h1))
  · simp only [List.mem_cons] at h1
    rcases h1 with h | h | h | h | h | h | h
    all_goals first
      | exact absurd h.symm (by decide)
      | exact hm h.symm
      | exact hT h

/-- Splitting the patched content recovers exactly the patched lines. -/
theorem splitNl_patchContent {T content : List Char} {m : Char} (hm : m ≠ '\n')
    (hT : '\n' ∉ T) :
    splitNl (patchContent T m content) = patchAux T m false (splitNl content) := by
  unfold patchContent
  apply splitNl_joinNl
  · intro l hl
    rcases mem_patchAux hl with h1 | ⟨x, hx, _, he⟩
    · exact not_mem_of_mem_splitNl h1
    · exact he ▸ setLineMark_no_nl hm hT (not_mem_of_mem_splitNl hx)
  · intro hcontra
    have h1 := patchAux_length T m false (splitNl content)
    rw [hcontra] at h1
    have h2 := splitNl_ne_nil content
    cases hs : splitNl content with
    | nil => exact h2 hs
    | cons a as => rw [hs] at h1; simp at h1

/-- If no line of the content matches, the substitution is the identity. -/
theorem patchContent_of_no_match {T content : List Char} {m : Char}
    (h : ∀ l ∈ splitNl content, lineMatch T l = false) :
    patchContent T m content = content := by
  unfold patchContent
  rw [patchAux_of_no_match h false, joinNl_splitNl]

/-- A task dict as the mutators use it: `task['task']`, `task['done']`, and
the optional timestamp keys the mutators write. -/
structure Task where
  task : String
  done : Bool
  started_at : Option String := none
  completed_at : Option String := none
deriving Repr, DecidableEq

/-- Result of one store mutation: the new store, whether a task matched,
whether `save_tasks_to_json` ran, and the list of
`update_markdown_task(file, text, status)` calls made, recorded as
`(candidate filename, requested status)`. -/
structure OpResult where
  tasks : List Task
  matched : Bool
  savedJson : Bool
  mdCalls : List (String × Bool)
deriving Repr, DecidableEq

/-- `for task in arcano_tasks: if task['task'] == task_name:` — the loops in
`start_task`, `mark_task_done` and `toggle_task_status` mutate the first
task whose text equals `task_name` exactly (case-sensitively, untrimmed)
and stop. -/
def updateFirst (name : String) (f : Task → Task) : List Task → Option (List Task)
  | [] => none
  | t :: ts =>
    if t.task = name then some (f t :: ts)
    else (updateFirst name f ts).map (t :: ·)

/-- `start_task` (lines 103-116): on the first exact match set `done=False`,
stamp `started_at=now`, call `save_tasks_to_json`, and `break`; otherwise
print "Task not found".  The function body contains no call to
`update_markdown_task`, so `mdCalls` is always empty. -/
def start_task (now : String) (ts : List Task) (name : String) : OpResult :=
  match updateFirst name (fun t => { t with done := false, started_at := some now }) ts with
  | some ts2 => ⟨ts2, true, true, []⟩
  | none => ⟨ts, false, false, []⟩

/-- `mark_task_done` (lines 137-147): on the first exact match set
`done=True` and stamp `completed_at=now` unconditionally — also when the
task is already done — then call `save_tasks_to_json` and `return`.  The
function body contains no call to `update_markdown_task`. -/
def mark_task_done (now : String) (ts : List Task) (name : String) : OpResult :=
  match updateFirst name (fun t => { t with done := true, completed_at := some now }) ts with
  | some ts2 => ⟨ts2, true, true, []⟩
  | none => ⟨ts, false, false, []⟩

/-- Result of `run_sprint`: the (unchanged) store and whether
`save_tasks_to_json` ran. -/
structure RunResult where
  tasks : List Task
  savedJson : Bool
deriving Repr, DecidableEq

/-- `run_sprint` (lines 118-135): prints a banner with the sprint name and a
report line for every unfinished task, sets no `done` flag (no task is
modified at all), and calls `save_tasks_to_json` — with the unchanged list —
iff at least one unfinished task exists. -/
def run_sprint (ts : List Task) : RunResult :=
  ⟨ts, ts.any fun t => !t.done⟩

/-- The two Markdown mirror files the program knows (`docs/sprint.md` and
`docs/todo.md`); `none` models a file (or a whole `docs` directory) that
does not exist on disk. -/
structure DocsFS where
  sprintMd : Option (List Char)
  todoMd : Option (List Char)
deriving Repr, DecidableEq

structure ToggleResult where
  tasks : List Task
  fs : DocsFS
  matched : Bool
  savedJson : Bool
  mdCalls : List (String × Bool)
deriving Repr, DecidableEq

/-- The toggle mutation (lines 207-215) on the first exactly matching task:
flip `done`; stamp `completed_at=now` when it became true, `started_at=now`
when it became false.  Returns the new list and the new `done` value. -/
def toggleFirst (now : String) (name : String) : List Task → Option (List Task × Bool)
  | [] => none
  | t :: ts =>
    if t.task = name then
      some ((if !t.done then { t with done := !t.done, completed_at := some now }
             else { t with done := !t.done, started_at := some now }) :: ts, !t.done)
    else (toggleFirst now name ts).map (fun p => (t :: p.1, p.2))

/-- One `update_markdown_task(md_path, task_name, task['done'])` call made
from `toggle_task_status` (line 224) on a file that exists: on success the
file is rewritten, on failure (`False`) it is left as it was. -/
def patchExistingFile (linesep T : List Char) (st : Bool) :
    Option (List Char) → Option (List Char)
  | none => none
  | some bytes => some ((update_markdown_file linesep T st bytes).getD bytes)

/-- `toggle_task_status` (lines 205-227): on the first exact match, flip the
task, call `save_tasks_to_json`, then call `update_markdown_task` once for
each of `sprint.md`, `todo.md` (in that order) that exists on disk; with no
match, print "Task not found" and perform no write of any kind. -/
def toggle_task_status (linesep : List Char) (now : String) (ts : List Task)
    (fs : DocsFS) (name : String) : ToggleResult :=
  match toggleFirst now name ts with
  | none => ⟨ts, fs, false, false, []⟩
  | some (ts2, nd) =>
    ⟨ts2,
     ⟨patchExistingFile linesep name.toList nd fs.sprintMd,
      patchExistingFile linesep name.toList nd fs.todoMd⟩,
     true, true,
     (if fs.sprintMd.isSome then [("sprint.md", nd)] else []) ++
       (if fs.todoMd.isSome then [("todo.md", nd)] else [])⟩

theorem updateFirst_eq_none_iff {name : String} {f : Task → Task} {ts : List Task} :
    updateFirst name f ts = none ↔ ∀ t ∈ ts, t.task ≠ name := by
  induction ts with
  | nil => simp [updateFirst]
  | cons t ts ih =>
    rw [updateFirst]
    by_cases ht : t.task = name
    · simp [ht]
    · simp only [if_neg ht, Option.map_eq_none', ih, List.mem_cons]
      constructor
      · intro h x hx
        rcases hx with h1 | h1
        · exact h1 ▸ ht
        · exact h x h1
      · intro h x hx
        exact h x (Or.inr hx)

theorem updateFirst_spec {name : String} {f : Task → Task} :
    ∀ {ts ts2 : List Task}, updateFirst name f ts = some ts2 →
      ∃ i t, ts[i]? = some t ∧ t.task = name ∧
        (∀ j u, j < i → ts[j]? = some u → u.task ≠ name) ∧
        ts2 = ts.set i (f t) := by
  intro ts
  induction ts with
  | nil => intro ts2 h; exact absurd h (by simp [updateFirst])
  | cons t ts ih =>
    intro ts2 h
    rw [updateFirst] at h
    by_cases ht : t.task = name
    · rw [if_pos ht] at h
      refine ⟨0, t, by simp, ht, ?_, ?_⟩
      · intro j u hj _; omega
      · simpa using h.symm
    · rw [if_neg ht] at h
      rcases Option.map_eq_some'.1 h with ⟨ts2', h1, h2⟩
      rcases ih h1 with ⟨i, x, hx, hn, hfirst, hset⟩
      refine ⟨i + 1, x, by simpa using hx, hn, ?_, ?_⟩
      · intro j u hj hu
        cases j with
        | zero => simpa using fun hh => ht ((by simpa using hu : t = u) ▸ hh)
        | succ k =>
          exact hfirst k u (by omega) (by simpa using hu)
      · rw [← h2, hset]
        simp

theorem toggleFirst_eq_none_iff {now name : String} {ts : List Task} :
    toggleFirst now name ts = none ↔ ∀ t ∈ ts, t.task ≠ name := by
  induction ts with
  | nil => simp [toggleFirst]
  | cons t ts ih =>
    rw [toggleFirst]
    by_cases ht : t.task = name
    · simp [ht]
    · simp only [if_neg ht, Option.map_eq_none', ih, List.mem_cons]
      constructor
      · intro h x hx
        rcases hx with h1 | h1
        · exact h1 ▸ ht
        · exact h x h1
      · intro h x hx
        exact h x (Or.inr hx)

/-- Python `line.strip()`: remove whitespace characters from both ends. -/
def pyStrip (l : List Char) : List Char :=
  ((l.dropWhile pySpace).reverse.dropWhile pySpace).reverse

/-- `\s+(.+)` after the hashes of `^(##|###)\s+(.+)`: at least one
whitespace character, then a nonempty remainder; `\s+` is greedy, so the
group is the text after the maximal whitespace run (on an all-whitespace
tail of length ≥ 2 the greedy `\s+` backtracks one step and `(.+)` captures
just the last character — unreachable after `strip`, modelled for
faithfulness). -/
def wsThenText (rest : List Char) : Option (List Char) :=
  match rest with
  | [] => none
  | c :: cs =>
    if pySpace c then
      match (c :: cs).dropWhile pySpace with
      | [] =>
        match cs with
        | [] => none
        | _ => some [(c :: cs).getLastD c]
      | r => some r
    else none

/-- `\s*(.+)`: like `wsThenText` but the whitespace run may be empty. -/
def starThenText (rest : List Char) : Option (List Char) :=
  match rest.dropWhile pySpace with
  | [] =>
    match rest with
    | [] => none
    | c :: cs => some [(c :: cs).getLastD c]
  | r => some r

/-- `re.match(r'^(##|###)\s+(.+)', line)` with
`name = group(2).strip()` and `isHeader = (group(1) == "##")`
(lines 296-306): the alternation tries `##` first, so a line yields a
`###` marker exactly when the character after `##` is another `#` and the
one after `###` starts a whitespace run followed by more text. -/
def headerOf (l : List Char) : Option (List Char × Bool) :=
  match l with
  | '#' :: '#' :: rest =>
    match wsThenText rest with
    | some g2 => some (pyStrip g2, true)
    | none =>
      match rest with
      | '#' :: rest2 =>
        match wsThenText rest2 with
        | some g2 => some (pyStrip g2, false)
        | none => none
      | _ => none
  | _ => none

/-- `re.match(r'^-\s*\[([ x])\]\s*(.+)', line)` with
`is_done = (group(1).lower() == 'x')` and `task_text = group(2).strip()`
(lines 310-313). -/
def taskOf (l : List Char) : Option (Bool × List Char) :=
  match l with
  | '-' :: rest =>
    match rest.dropWhile pySpace with
    | '[' :: c :: ']' :: rest2 =>
      if c = ' ' || c = 'x' then
        (starThenText rest2).map (fun g2 => (c = 'x', pyStrip g2))
      else none
    | _ => none
  | _ => none

/-- An item of the sequence `load_tasks_from_file` returns for a Markdown
file: a section marker (`type: "section"`, with `name` and `isHeader`) or a
task (`type: "task"`, with `task`, `done` and `section`). -/
inductive Item where
  | sec (name : List Char) (isHeader : Bool)
  | task (text : List Char) (done : Bool) (sectionName : Option (List Char))
deriving Repr, DecidableEq

/-- The loop of the Markdown branch of `load_tasks_from_file`
(lines 291-320): split the content on `'\n'`, strip each line, classify it
(section header first, then task, else ignore), threading
`current_section` linearly from `None`. -/
def parseLines (cur : Option (List Char)) : List (List Char) → List Item
  | [] => []
  | l :: ls =>
    match headerOf (pyStrip l) with
    | some (nm, isH) => Item.sec nm isH :: parseLines (some nm) ls
    | none =>
      match taskOf (pyStrip l) with
      | some (dn, tx) => Item.task tx dn cur :: parseLines cur ls
      | none => parseLines cur ls

/-- The Markdown branch of `load_tasks_from_file` on a file's bytes (the
file is read in universal-newline text mode). -/
def load_tasks_from_file_md (fileBytes : List Char) : List Item :=
  parseLines none (splitNl (univNewlines fileBytes))

/-- The header name a line contributes, if any. -/
def headerNameOf (l : List Char) : Option (List Char) :=
  (headerOf (pyStrip l)).map Prod.fst

/-- Modelled from the spec: the name of the nearest preceding header among
the given earlier lines, in document order (the latest header wins). -/
def nearestHeader (pre : List (List Char)) : Option (List Char) :=
  pre.reverse.findSome? headerNameOf

/-- Modelled from the spec: each line is classified independently, and a
task line's `section` is the name of the nearest preceding header line
(`none` before any header).  `pre` accumulates the lines already passed. -/
def specItemsAux (pre : List (List Char)) : List (List Char) → List Item
  | [] => []
  | l :: ls =>
    (match headerOf (pyStrip l) with
     | some (nm, isH) => [Item.sec nm isH]
     | none =>
       match taskOf (pyStrip l) with
       | some (dn, tx) => [Item.task tx dn (nearestHeader pre)]
       | none => []) ++ specItemsAux (pre ++ [l]) ls

def specItems (lines : List (List Char)) : List Item := specItemsAux [] lines

theorem nearestHeader_append_one (pre : List (List Char)) (l : List Char) :
    nearestHeader (pre ++ [l]) =
      match headerNameOf l with
      | some nm => some nm
      | none => nearestHeader pre := by
  unfold nearestHeader
  rw [List.reverse_append]
  simp only [List.reverse_cons, List.reverse_nil, List.nil_append,
    List.cons_append, List.findSome?_cons]
  cases headerNameOf l <;> rfl

theorem parseLines_eq_specItemsAux :
    ∀ (ls : List (List Char)) (pre : List (List Char)) (cur : Option (List Char)),
      nearestHeader pre = cur → parseLines cur ls = specItemsAux pre ls := by
  intro ls
  induction ls with
  | nil => intro pre cur _; rfl
  | cons l ls ih =>
    intro pre cur hcur
    rw [parseLines, specItemsAux]
    cases hh : headerOf (pyStrip l) with
    | some p =>
      obtain ⟨nm, isH⟩ := p
      have hnext : nearestHeader (pre ++ [l]) = some nm := by
        rw [nearestHeader_append_one]
        unfold headerNameOf
        rw [hh]
        rfl
      show Item.sec nm isH :: parseLines (some nm) ls =
        Item.sec nm isH :: specItemsAux (pre ++ [l]) ls
      exact congrArg _ (ih (pre ++ [l]) (some nm) hnext)
    | none =>
      have hnext : nearestHeader (pre ++ [l]) = cur := by
        rw [nearestHeader_append_one]
        unfold headerNameOf
        rw [hh]
        exact hcur
      cases ht : taskOf (pyStrip l) with
      | some p =>
        obtain ⟨dn, tx⟩ := p
        show Item.task tx dn cur :: parseLines cur ls =
          Item.task tx dn (nearestHeader pre) :: specItemsAux (pre ++ [l]) ls
        rw [hcur]
        exact congrArg _ (ih (pre ++ [l]) cur hnext)
      | none =>
        show parseLines cur ls = [] ++ specItemsAux (pre ++ [l]) ls
        rw [List.nil_append]
        exact ih (pre ++ [l]) cur hnext

/-- A decoded JSON value, as far as the loader inspects one. -/
inductive JVal where
  | null
  | boolean (b : Bool)
  | number (n : Int)
  | str (s : List Char)
  | arr (xs : List JVal)
  | obj (fields : List (List Char × JVal))

/-- Python `pat in s` for strings: substring containment. -/
def containsSub (pat : List Char) : List Char → Bool
  | [] => pat.isEmpty
  | s@(_ :: r) => pat.isPrefixOf s || containsSub pat r

/-- Python `'task' in item` inside the qualification check (line 48): a
mapping checks its keys, a string checks substring containment, a list
checks membership (string equality); on the remaining JSON scalars the
`in` operator raises `TypeError`, which the surrounding `try` turns into
skipping the whole file — modelled as `none`. -/
def hasTaskKey : JVal → Option Bool
  | .obj fields => some (fields.any fun f => f.1 = "task".toList)
  | .str s => some (containsSub ("task".toList) s)
  | .arr xs => some (xs.any fun x =>
      match x with
      | .str s => s = "task".toList
      | _ => false)
  | _ => none

/-- `all('task' in item for item in data)` (line 48), evaluated lazily:
stop at the first `False`; reaching a raising element skips the file.
On the empty list this is vacuously `True`. -/
def allHaveTask : List JVal → Option Bool
  | [] => some true
  | x :: xs =>
    match hasTaskKey x with
    | none => none
    | some false => some false
    | some true => allHaveTask xs

/-- One JSON candidate (lines 43-52): `none` models a file whose read or
`json.load` raised; a decoded value qualifies when it is a list all of
whose members contain a `task` key — in particular the empty list
qualifies and is returned as-is. -/
def tryJsonFile : Option JVal → Option (List JVal)
  | some (.arr xs) =>
    match allHaveTask xs with
    | some true => some xs
    | _ => none
  | _ => none

/-- `f.endswith('.json')` (line 40). -/
def endsWithJson (name : List Char) : Bool := ".json".toList.isSuffixOf name

/-- The scan over the `.json` entries of `os.listdir(docs)` (lines 40-52):
the first file ending in `.json` whose decoded content qualifies wins;
`entries` carries the directory listing in `os.listdir` order, paired with
each file's decode outcome. -/
def firstQualifyingJson : List (List Char × Option JVal) → Option (List JVal)
  | [] => none
  | (nm, dec) :: rest =>
    if endsWithJson nm then
      match tryJsonFile dec with
      | some d => some d
      | none => firstQualifyingJson rest
    else firstQualifyingJson rest

/-- `re.search(r'- \[([ x])\] (.*)', line)` (line 62): the leftmost
occurrence of `- [c] ` with `c ∈ ' '/'x'` anywhere in the line; group 2 is
the whole remainder of the line, unstripped. -/
def searchTaskPat : List Char → Option (Bool × List Char)
  | [] => none
  | l@(_ :: tl) =>
    match l with
    | '-' :: ' ' :: '[' :: c :: ']' :: ' ' :: r =>
      if c = ' ' || c = 'x' then some (c = 'x', r) else searchTaskPat tl
    | _ => searchTaskPat tl

/-- The Markdown fallback of the loader (lines 55-69): every line of the
(universal-newline read) file containing the pattern contributes a dict
`{"task": text, "done": done}`.  (Python iterates `content.splitlines()`;
with the content already newline-translated this differs from splitting on
`'\n'` only on rare extra Unicode line boundaries, which are not
modelled.) -/
def mdFileTasks : Option (List Char) → List JVal
  | none => []
  | some bytes =>
    ((splitNl (univNewlines bytes)).filterMap searchTaskPat).map
      fun p => JVal.obj [("task".toList, JVal.str p.2), ("done".toList, JVal.boolean p.1)]

/-- `load_tasks_from_any_json_or_md` (lines 35-74): prefer the first
qualifying JSON file under `docs`; else the first of `docs/sprint.md`,
`docs/todo.md` that exists and yields at least one task line; else `None`
("No task files found"). -/
def load_tasks_from_any_json_or_md (docsExists : Bool)
    (entries : List (List Char × Option JVal))
    (sprintMd todoMd : Option (List Char)) : Option (List JVal) :=
  match (if docsExists then firstQualifyingJson entries else none) with
  | some d => some d
  | none =>
    let s := mdFileTasks sprintMd
    if s.isEmpty then
      let t := mdFileTasks todoMd
      if t.isEmpty then none else some t
    else some s

/-- The ten-task dummy list `arcano_tasks` (lines 17-28), the built-in
default task set. -/
def defaultTasks : List JVal :=
  ["Automated Debug System (Highest Priority)",
   "Develop advanced deck sharing & privacy features",
   "Implement lazy loading for media assets",
   "Reduce API response times through optimization",
   "Enhance accessibility features",
   "Implement advanced customization options for UX",
   "Add personalized recommendations",
   "Implement user feedback loop for AI improvements",
   "Add advanced customization options for AI-generated content",
   "Explore additional AI model integrations"].map
    fun s => JVal.obj [("task".toList, JVal.str s.toList), ("done".toList, JVal.boolean false)]

/-- Lines 99-101: the session store starts as the loader's result when
there is one, else as the built-in default list. -/
def initialStore (docsExists : Bool) (entries : List (List Char × Option JVal))
    (sprintMd todoMd : Option (List Char)) : List JVal :=
  (load_tasks_from_any_json_or_md docsExists entries sprintMd todoMd).getD defaultTasks

/-- The lowercase hexadecimal digit character for `n < 16`, as `json.dumps`
renders `\uXXXX` escapes. -/
def hexDigit (n : Nat) : Char :=
  if n < 10 then Char.ofNat (48 + n) else Char.ofNat (87 + n)

def isHexChar (c : Char) : Bool :=
  ('0' ≤ c && c ≤ '9') || ('a' ≤ c && c ≤ 'f')

/-- A `\uXXXX` escape for a code unit `n < 0x10000`. -/
def uEsc (n : Nat) : List Char :=
  ['\\', 'u', hexDigit (n / 4096 % 16), hexDigit (n / 256 % 16),
   hexDigit (n / 16 % 16), hexDigit (n % 16)]

/-- `json.dumps` escaping of one character under the default
`ensure_ascii=True`: the two-character shorthands, `\u00xx` for other
control characters, printable ASCII verbatim, `\uxxxx` for other
characters of the Basic Multilingual Plane, and a UTF-16 surrogate pair
beyond it. -/
def jsonEscChar (c : Char) : List Char :=
  if c = '"' then ['\\', '"']
  else if c = '\\' then ['\\', '\\']
  else if c = '\n' then ['\\', 'n']
  else if c = '\r' then ['\\', 'r']
  else if c = '\t' then ['\\', 't']
  else if c = '\x08' then ['\\', 'b']
  else if c = '\x0c' then ['\\', 'f']
  else if c.toNat < 0x20 then uEsc c.toNat
  else if c.toNat < 0x7f then [c]
  else if c.toNat < 0x10000 then uEsc c.toNat
  else uEsc (0xd800 + (c.toNat - 0x10000) / 1024) ++ uEsc (0xdc00 + (c.toNat - 0x10000) % 1024)

/-- A JSON string literal for `s`. -/
def jsonStr (s : List Char) : List Char :=
  '"' :: ((s.map jsonEscChar).flatten ++ ['"'])

/-- The `", "`-separated items after the first one, closed by `]`. -/
def jsonItems : List (List Char) → List Char
  | [] => [']']
  | f :: fs => ',' :: ' ' :: (jsonStr f ++ jsonItems fs)

/-- `json.dumps(files)` for a list of strings, with the default separators
`(', ', ': ')` and `ensure_ascii=True`. -/
def jsonDumpStrings : List (List Char) → List Char
  | [] => ['[', ']']
  | f :: fs => '[' :: (jsonStr f ++ jsonItems fs)

/-- `list_sprint_files` (lines 90-96): when `docs` does not exist the list
stays empty, otherwise it is the listing filtered to names ending in
`.json` or `.md`; the function prints `json.dumps(files)` on stdout. -/
def list_sprint_files (docsExists : Bool) (listing : List (List Char)) : List Char :=
  jsonDumpStrings
    (if docsExists then
      listing.filter (fun f => endsWithJson f || ".md".toList.isSuffixOf f)
    else [])

/-- Body of a syntactically well-formed JSON string literal (the characters
between the quotes): unescaped characters are not `"` or `\` and not
control characters; escapes are the JSON two-character ones or `\u` with
four hex digits. -/
inductive StrBody : List Char → Prop
  | nil : StrBody []
  | plain (c : Char) (r : List Char) : c ≠ '"' → c ≠ '\\' → 0x20 ≤ c.toNat →
      StrBody r → StrBody (c :: r)
  | esc (e : Char) (r : List Char) : e ∈ ['"', '\\', '/', 'b', 'f', 'n', 'r', 't'] →
      StrBody r → StrBody ('\\' :: e :: r)
  | uni (h1 h2 h3 h4 : Char) (r : List Char) : isHexChar h1 = true →
      isHexChar h2 = true → isHexChar h3 = true → isHexChar h4 = true →
      StrBody r → StrBody ('\\' :: 'u' :: h1 :: h2 :: h3 :: h4 :: r)

/-- What may follow a complete string element inside a JSON array of
strings: the closing bracket (at the very end), or a `", "` separator and
another string element. -/
inductive ArrTail : List Char → Prop
  | done : ArrTail [']']
  | more (b r : List Char) : StrBody b → ArrTail r →
      ArrTail (',' :: ' ' :: '"' :: (b ++ '"' :: r))

/-- A syntactically valid JSON array-of-strings text (nothing before or
after it). -/
inductive JsonStrArray : List Char → Prop
  | empty : JsonStrArray ['[', ']']
  | nonempty (b r : List Char) : StrBody b → ArrTail r →
      JsonStrArray ('[' :: '"' :: (b ++ '"' :: r))

theorem StrBody.append {a b : List Char} (ha : StrBody a) (hb : StrBody b) :
    StrBody (a ++ b) := by
  induction ha with
  | nil => exact hb
  | plain c r h1 h2 h3 _ ih => exact StrBody.plain c _ h1 h2 h3 ih
  | esc e r h1 _ ih => exact StrBody.esc e _ h1 ih
  | uni h1 h2 h3 h4 r e1 e2 e3 e4 _ ih => exact StrBody.uni h1 h2 h3 h4 _ e1 e2 e3 e4 ih

theorem isHexChar_hexDigit (n : Nat) (h : n < 16) : isHexChar (hexDigit n) = true := by
  unfold hexDigit
  interval_cases n <;> decide

theorem strBody_uEsc (n : Nat) : StrBody (uEsc n) := by
  unfold uEsc
  exact StrBody.uni _ _ _ _ []
    (isHexChar_hexDigit _ (Nat.mod_lt _ (by norm_num)))
    (isHexChar_hexDigit _ (Nat.mod_lt _ (by norm_num)))
    (isHexChar_hexDigit _ (Nat.mod_lt _ (by norm_num)))
    (isHexChar_hexDigit _ (Nat.mod_lt _ (by norm_num)))
    StrBody.nil

theorem strBody_jsonEscChar (c : Char) : StrBody (jsonEscChar c) := by
  unfold jsonEscChar
  by_cases h1 : c = '"'
  · simp only [if_pos h1]; exact StrBody.esc _ _ (by decide) StrBody.nil
  rw [if_neg h1]
  by_cases h2 : c = '\\'
  · simp only [if_pos h2]; exact StrBody.esc _ _ (by decide) StrBody.nil
  rw [if_neg h2]
  by_cases h3 : c = '\n'
  · simp only [if_pos h3]; exact StrBody.esc _ _ (by decide) StrBody.nil
  rw [if_neg h3]
  by_cases h4 : c = '\r'
  · simp only [if_pos h4]; exact StrBody.esc _ _ (by decide) StrBody.nil
  rw [if_neg h4]
  by_cases h5 : c = '\t'
  · simp only [if_pos h5]; exact StrBody.esc _ _ (by decide) StrBody.nil
  rw [if_neg h5]
  by_cases h6 : c = '\x08'
  · simp only [if_pos h6]; exact StrBody.esc _ _ (by decide) StrBody.nil
  rw [if_neg h6]
  by_cases h7 : c = '\x0c'
  · simp only [if_pos h7]; exact StrBody.esc _ _ (by decide) StrBody.nil
  rw [if_neg h7]
  by_cases h8 : c.toNat < 0x20
  · rw [if_pos h8]; exact strBody_uEsc _
  rw [if_neg h8]
  by_cases h9 : c.toNat < 0x7f
  · rw [if_pos h9]
    exact StrBody.plain c [] h1 h2 (by omega) StrBody.nil
  rw [if_neg h9]
  by_cases h10 : c.toNat < 0x10000
  · rw [if_pos h10]; exact strBody_uEsc _
  · rw [if_neg h10]; exact (strBody_uEsc _).append (strBody_uEsc _)

theorem strBody_escaped (s : List Char) : StrBody ((s.map jsonEscChar).flatten) := by
  induction s with
  | nil => exact StrBody.nil
  | cons c cs ih =>
    rw [List.map_cons, List.flatten]
    exact (strBody_jsonEscChar c).append ih

theorem arrTail_jsonItems (fs : List (List Char)) : ArrTail (jsonItems fs) := by
  induction fs with
  | nil => exact ArrTail.done
  | cons f fs ih =>
    show ArrTail (',' :: ' ' :: (jsonStr f ++ jsonItems fs))
    have : ',' :: ' ' :: (jsonStr f ++ jsonItems fs) =
        ',' :: ' ' :: '"' :: (((f.map jsonEscChar).flatten) ++ '"' :: jsonItems fs) := by
      unfold jsonStr
      simp
    rw [this]
    exact ArrTail.more _ _ (strBody_escaped f) ih

theorem jsonStrArray_dump (files : List (List Char)) :
    JsonStrArray (jsonDumpStrings files) := by
  cases files with
  | nil => exact JsonStrArray.empty
  | cons f fs =>
    show JsonStrArray ('[' :: (jsonStr f ++ jsonItems fs))
    have : '[' :: (jsonStr f ++ jsonItems fs) =
        '[' :: '"' :: (((f.map jsonEscChar).flatten) ++ '"' :: jsonItems fs) := by
      unfold jsonStr
      simp
    rw [this]
    exact JsonStrArray.nonempty _ _ (strBody_escaped f) (arrTail_jsonItems fs)

theorem statusMark_ne_nl (st : Bool) : statusMark st ≠ '\n' := by
  cases st <;> decide

theorem update_markdown_task_eq_some {T content c' : List Char} {st : Bool}
    (h : update_markdown_task T st content = some c') :
    c' = patchContent T (statusMark st) content ∧ c' ≠ content := by
  unfold update_markdown_task at h
  split at h
  · exact absurd h (by simp)
  · rename_i hne
    cases h
    exact ⟨rfl, hne⟩

/-- C1 (amended).  The match pattern does require the entire remainder of
the checklist line after the checkbox to equal the task text `T` exactly:
(1) a successful patch leaves every line whose label is not exactly `T` —
in particular any line whose label merely contains `T` — unchanged in the
in-memory (universal-newline translated) content; (2) a label that
strictly extends `T` never matches `T`'s pattern; (3) on a platform whose
`os.linesep` is `"\n"`, the other line is byte-identical in the file
whenever the file contains no `"\r"`.  (For files with `"\r\n"`
terminators, text-mode I/O rewrites every terminator to the platform
separator on a successful patch — see the counterexample.) -/
theorem C1_label_exact_frame (bytes T : List Char) (st : Bool)
    (hT : '\n' ∉ T) (_hB : '\\' ∉ T) :
    (∀ c', update_markdown_task T st (univNewlines bytes) = some c' →
      ∀ (i : Nat) (l : List Char), (splitNl (univNewlines bytes))[i]? = some l →
        lineLabel l ≠ some T → (splitNl c')[i]? = some l) ∧
    (∀ l s : List Char, lineLabel l = some (T ++ s) → s ≠ [] → lineMatch T l = false) ∧
    ('\r' ∉ bytes → ∀ c', update_markdown_file ['\n'] T st bytes = some c' →
      ∀ (i : Nat) (l : List Char), (splitNl bytes)[i]? = some l →
        lineLabel l ≠ some T → (splitNl c')[i]? = some l) := by
  have main : ∀ (content c' : List Char), update_markdown_task T st content = some c' →
      ∀ (i : Nat) (l : List Char), (splitNl content)[i]? = some l →
        lineLabel l ≠ some T → (splitNl c')[i]? = some l := by
    intro content c' hup i l hl hlab
    obtain ⟨hc', _⟩ := update_markdown_task_eq_some hup
    subst hc'
    rw [splitNl_patchContent (statusMark_ne_nl st) hT]
    rcases patchAux_getElem? T (statusMark st) false (splitNl content) i with h1 | ⟨l2, hl2, hm2, _⟩
    · rw [h1, hl]
    · rw [hl] at hl2
      cases hl2
      exact absurd (lineMatch_iff_label.1 hm2) hlab
  refine ⟨main _, fun l s => lineMatch_of_strict_extension, ?_⟩
  intro hcr c' hup i l hl hlab
  have hid := univNewlines_of_no_cr hcr
  unfold update_markdown_file at hup
  rcases Option.map_eq_some'.1 hup with ⟨c0, hc0, hw⟩
  rw [writeNl_lf] at hw
  subst hw
  rw [hid] at hc0
  exact main bytes c0 hc0 i l hl hlab

/-- C1 counterexample.  On a platform with `os.linesep = "\n"` (macOS and
Linux, on which this repository is explicitly tested), patching `"a"` in a
`"\r\n"`-terminated file succeeds, and the line of the strict-extension
label `"ab"` is not byte-identical afterwards: its `"\r\n"` terminator was
rewritten to `"\n"` (universal-newline read plus `os.linesep` write), even
though its text was untouched. -/
theorem C1_counterexample :
    update_markdown_file ['\n'] "a".toList true "- [ ] a\r\n- [ ] ab\r\n".toList =
      some "- [x] a\n- [ ] ab\n".toList ∧
    lineLabel "- [ ] ab".toList = some ("a".toList ++ "b".toList) ∧
    "b".toList ≠ [] ∧
    '\r' ∈ "- [ ] a\r\n- [ ] ab\r\n".toList ∧
    '\r' ∉ "- [x] a\n- [ ] ab\n".toList := by decide

/-- C1 witness: the theorem applied to the spec's own example (LF file,
task `"a"`, second line label `"ab"`). -/
theorem C1_witness :
    (splitNl "- [x] a\n- [ ] ab\n".toList)[1]? = some "- [ ] ab".toList := by
  have h := C1_label_exact_frame "- [ ] a\n- [ ] ab\n".toList "a".toList true
    (by decide) (by decide)
  exact h.1 "- [x] a\n- [ ] ab\n".toList (by decide) 1 "- [ ] ab".toList (by decide) (by decide)

/-- C2 (amended).  A successful run of the Markdown Patcher keeps the line
count, rewrites at least one line, rewrites only lines whose entire
remainder after the checkbox equals the task text, and changes nothing on
a rewritten line except the checkbox marker character; when the task text
matches at most one line of the file, exactly one line is rewritten.
`re.sub` replaces every reachable occurrence, so a file with several
matching lines has several lines rewritten (see the counterexample), and
the rewritten file's line terminators are those of the platform, not
necessarily the original bytes. -/
theorem C2_frame_only_marks (bytes T c' : List Char) (st : Bool)
    (hT : '\n' ∉ T) (_hB : '\\' ∉ T)
    (hup : update_markdown_task T st (univNewlines bytes) = some c') :
    (splitNl c').length = (splitNl (univNewlines bytes)).length ∧
    (∃ i : Nat, (splitNl c')[i]? ≠ (splitNl (univNewlines bytes))[i]?) ∧
    (∀ i : Nat, (splitNl c')[i]? ≠ (splitNl (univNewlines bytes))[i]? →
      ∃ l w c, (splitNl (univNewlines bytes))[i]? = some l ∧ (c = ' ' ∨ c = 'x') ∧
        (∀ a ∈ w, pySpace a = true) ∧
        l = w ++ '-' :: ' ' :: '[' :: c :: ']' :: ' ' :: T ∧
        (splitNl c')[i]? = some (w ++ '-' :: ' ' :: '[' :: statusMark st :: ']' :: ' ' :: T)) ∧
    ((∀ (i j : Nat) (li lj : List Char),
        (splitNl (univNewlines bytes))[i]? = some li →
        (splitNl (univNewlines bytes))[j]? = some lj →
        lineMatch T li = true → lineMatch T lj = true → i = j) →
      ∃! i : Nat, (splitNl c')[i]? ≠ (splitNl (univNewlines bytes))[i]?) := by
  obtain ⟨hc', hne⟩ := update_markdown_task_eq_some hup
  subst hc'
  have hbr : splitNl (patchContent T (statusMark st) (univNewlines bytes)) =
      patchAux T (statusMark st) false (splitNl (univNewlines bytes)) :=
    splitNl_patchContent (statusMark_ne_nl st) hT
  have hlen : (splitNl (patchContent T (statusMark st) (univNewlines bytes))).length =
      (splitNl (univNewlines bytes)).length := by
    rw [hbr]; exact patchAux_length T (statusMark st) false _
  have hdiffs : ∀ i : Nat,
      (splitNl (patchContent T (statusMark st) (univNewlines bytes)))[i]? ≠
        (splitNl (univNewlines bytes))[i]? →
      ∃ l, (splitNl (univNewlines bytes))[i]? = some l ∧ lineMatch T l = true ∧
        (splitNl (patchContent T (statusMark st) (univNewlines bytes)))[i]? =
          some (setLineMark (statusMark st) T l) := by
    intro i hdiff
    rw [hbr] at hdiff
    rcases patchAux_getElem? T (statusMark st) false (splitNl (univNewlines bytes)) i with
      h1 | ⟨l, hl, hm, hout⟩
    · exact absurd (hbr ▸ h1) hdiff
    · exact ⟨l, hl, hm, hbr ▸ hout⟩
  have hex : ∃ i : Nat,
      (splitNl (patchContent T (statusMark st) (univNewlines bytes)))[i]? ≠
        (splitNl (univNewlines bytes))[i]? := by
    by_contra hall
    push_neg at hall
    have heq : splitNl (patchContent T (statusMark st) (univNewlines bytes)) =
        splitNl (univNewlines bytes) := List.ext_getElem? hall
    apply hne
    have := congrArg joinNl heq
    rwa [joinNl_splitNl, joinNl_splitNl] at this
  refine ⟨hlen, hex, ?_, ?_⟩
  · intro i hdiff
    obtain ⟨l, hl, hm, hout⟩ := hdiffs i hdiff
    obtain ⟨w, c, hw, hc, hleq, hset⟩ := lineMatch_decomp hm
    exact ⟨l, w, c, hl, hc, hw, hleq, by rw [hout, hset]⟩
  · intro huniq
    obtain ⟨i0, hi0⟩ := hex
    refine ⟨i0, hi0, ?_⟩
    intro j hj
    obtain ⟨li, hli, hmi, _⟩ := hdiffs i0 hi0
    obtain ⟨lj, hlj, hmj, _⟩ := hdiffs j hj
    exact huniq j i0 lj li hlj hli hmj hmi

/-- C2 counterexample.  With two matching checklist lines separated by a
non-matching line, one successful run rewrites both of them — not exactly
one line: toggling `"T"` to done changes line 1 and line 3. -/
theorem C2_counterexample :
    update_markdown_task "T".toList true (univNewlines "- [ ] T\nfoo\n- [ ] T\n".toList) =
      some "- [x] T\nfoo\n- [x] T\n".toList ∧
    (splitNl "- [x] T\nfoo\n- [x] T\n".toList)[0]? ≠
      (splitNl (univNewlines "- [ ] T\nfoo\n- [ ] T\n".toList))[0]? ∧
    (splitNl "- [x] T\nfoo\n- [x] T\n".toList)[2]? ≠
      (splitNl (univNewlines "- [ ] T\nfoo\n- [ ] T\n".toList))[2]? := by decide

/-- C2 witness: the theorem applied to a one-task file. -/
theorem C2_witness :
    ∃ i : Nat, (splitNl "- [x] T\n".toList)[i]? ≠
      (splitNl (univNewlines "- [ ] T\n".toList))[i]? :=
  (C2_frame_only_marks "- [ ] T\n".toList "T".toList "- [x] T\n".toList true
    (by decide) (by decide) (by decide)).2.1

/-- C3 (confirmed).  If no checklist line's label equals the task text,
`update_markdown_task` returns `False` without writing, leaving the file's
bytes untouched; and toggling a task name that matches nothing in the
store changes neither the store nor any file, saves no JSON, makes no
patcher call, and reports "not found" (`matched = false`). -/
theorem C3_not_found_no_write :
    (∀ (linesep bytes T : List Char) (st : Bool), '\n' ∉ T →
      (∀ l ∈ splitNl (univNewlines bytes), lineLabel l ≠ some T) →
      update_markdown_file linesep T st bytes = none) ∧
    (∀ (linesep : List Char) (now : String) (ts : List Task) (fs : DocsFS) (name : String),
      (∀ t ∈ ts, t.task ≠ name) →
      toggle_task_status linesep now ts fs name = ⟨ts, fs, false, false, []⟩) := by
  constructor
  · intro linesep bytes T st hT hno
    unfold update_markdown_file
    have hnone : update_markdown_task T st (univNewlines bytes) = none := by
      unfold update_markdown_task
      rw [if_pos (patchContent_of_no_match (fun l hl => lineMatch_of_label_ne (hno l hl)))]
    rw [hnone]
    rfl
  · intro linesep now ts fs name hno
    unfold toggle_task_status
    rw [toggleFirst_eq_none_iff.2 hno]

/-- C3 witness: a file without the task, and a store without the name. -/
theorem C3_witness :
    update_markdown_file ['\n'] "zzz".toList true "- [ ] a\n".toList = none ∧
    toggle_task_status ['\n'] "t1" [⟨"A", false, none, none⟩]
        ⟨some "- [ ] A\n".toList, none⟩ "B" =
      ⟨[⟨"A", false, none, none⟩], ⟨some "- [ ] A\n".toList, none⟩, false, false, []⟩ :=
  ⟨C3_not_found_no_write.1 ['\n'] "- [ ] a\n".toList "zzz".toList true (by decide) (by decide),
   C3_not_found_no_write.2 ['\n'] "t1" [⟨"A", false, none, none⟩]
     ⟨some "- [ ] A\n".toList, none⟩ "B" (by decide)⟩

theorem updateFirst_isSome_iff {name : String} {f : Task → Task} {ts : List Task} :
    (updateFirst name f ts).isSome = true ↔ ∃ t ∈ ts, t.task = name := by
  rcases h : updateFirst name f ts with _ | ts2
  · simp only [Option.isSome_none]
    constructor
    · intro hc; exact absurd hc (by simp)
    · rintro ⟨t, ht, he⟩
      exact absurd he (updateFirst_eq_none_iff.1 h t ht)
  · simp only [Option.isSome_some, true_iff]
    by_contra hno
    push_neg at hno
    rw [updateFirst_eq_none_iff.2 hno] at h
    exact absurd h (by simp)

theorem toggleFirst_isSome_iff {now name : String} {ts : List Task} :
    (toggleFirst now name ts).isSome = true ↔ ∃ t ∈ ts, t.task = name := by
  rcases h : toggleFirst now name ts with _ | p
  · simp only [Option.isSome_none]
    constructor
    · intro hc; exact absurd hc (by simp)
    · rintro ⟨t, ht, he⟩
      exact absurd he (toggleFirst_eq_none_iff.1 h t ht)
  · simp only [Option.isSome_some, true_iff]
    by_contra hno
    push_neg at hno
    rw [toggleFirst_eq_none_iff.2 hno] at h
    exact absurd h (by simp)

theorem start_task_matched (now : String) (ts : List Task) (name : String) :
    (start_task now ts name).matched =
      (updateFirst name (fun t => { t with done := false, started_at := some now }) ts).isSome := by
  unfold start_task
  cases updateFirst name (fun t => { t with done := false, started_at := some now }) ts <;> rfl

theorem mark_task_done_matched (now : String) (ts : List Task) (name : String) :
    (mark_task_done now ts name).matched =
      (updateFirst name (fun t => { t with done := true, completed_at := some now }) ts).isSome := by
  unfold mark_task_done
  cases updateFirst name (fun t => { t with done := true, completed_at := some now }) ts <;> rfl

theorem toggle_task_status_matched (linesep : List Char) (now : String) (ts : List Task)
    (fs : DocsFS) (name : String) :
    (toggle_task_status linesep now ts fs name).matched = (toggleFirst now name ts).isSome := by
  unfold toggle_task_status
  rcases toggleFirst now name ts with _ | ⟨ts2, nd⟩ <;> rfl

/-- C4 (amended).  Every mutation operation (start, complete, toggle)
locates its target by exact, case-sensitive, untrimmed string equality on
the task text (`task['task'] == task_name`): a match is reported exactly
when some stored task text equals the argument literally, so text that
differs only in letter case or in leading/trailing whitespace is not
matched (see the counterexample). -/
theorem C4_exact_case_sensitive_match (now : String) (ts : List Task) (name : String)
    (linesep : List Char) (fs : DocsFS) :
    ((start_task now ts name).matched = true ↔ ∃ t ∈ ts, t.task = name) ∧
    ((mark_task_done now ts name).matched = true ↔ ∃ t ∈ ts, t.task = name) ∧
    ((toggle_task_status linesep now ts fs name).matched = true ↔ ∃ t ∈ ts, t.task = name) := by
  refine ⟨?_, ?_, ?_⟩
  · rw [start_task_matched, updateFirst_isSome_iff]
  · rw [mark_task_done_matched, updateFirst_isSome_iff]
  · rw [toggle_task_status_matched, toggleFirst_isSome_iff]

/-- C4 counterexample.  With the store `[{"task": "Foo"}]`, the argument
`"foo"` — equal up to letter case — and `" Foo "` — equal up to
surrounding whitespace — are both reported "not found" by the mutation
operations, and nothing is mutated, although the claim requires them to
match. -/
theorem C4_counterexample :
    (start_task "t1" [⟨"Foo", false, none, none⟩] "foo").matched = false ∧
    (start_task "t1" [⟨"Foo", false, none, none⟩] "foo").tasks =
      [⟨"Foo", false, none, none⟩] ∧
    (mark_task_done "t1" [⟨"Foo", false, none, none⟩] "foo").matched = false ∧
    (toggle_task_status ['\n'] "t1" [⟨"Foo", false, none, none⟩]
        ⟨none, none⟩ "foo").matched = false ∧
    "Foo".toList.map Char.toLower = "foo".toList.map Char.toLower ∧
    (start_task "t1" [⟨"Foo", false, none, none⟩] " Foo ").matched = false ∧
    pyStrip " Foo ".toList = "Foo".toList := by decide

/-- C4 witness: an exactly equal text does match. -/
theorem C4_witness :
    (start_task "t1" [⟨"Foo", false, none, none⟩] "Foo").matched = true :=
  (C4_exact_case_sensitive_match "t1" [⟨"Foo", false, none, none⟩] "Foo" ['\n']
    ⟨none, none⟩).1.mpr ⟨⟨"Foo", false, none, none⟩, List.mem_cons_self _ _, rfl⟩

/-- C5 (amended).  On a match, every state-changing operation calls the
JSON persister unconditionally, but only `toggle_task_status` invokes the
Markdown Patcher — once per candidate file (`sprint.md`, `todo.md`) that
exists on disk; `start_task` and `mark_task_done` never call
`update_markdown_task` at all. -/
theorem C5_only_toggle_patches_markdown (now : String) (ts : List Task) (name : String)
    (linesep : List Char) (fs : DocsFS) :
    ((start_task now ts name).matched = true → (start_task now ts name).savedJson = true) ∧
    (start_task now ts name).mdCalls = [] ∧
    ((mark_task_done now ts name).matched = true →
      (mark_task_done now ts name).savedJson = true) ∧
    (mark_task_done now ts name).mdCalls = [] ∧
    ((toggle_task_status linesep now ts fs name).matched = true →
      (toggle_task_status linesep now ts fs name).savedJson = true ∧
      ∃ nd : Bool, (toggle_task_status linesep now ts fs name).mdCalls =
        (if fs.sprintMd.isSome then [("sprint.md", nd)] else []) ++
          (if fs.todoMd.isSome then [("todo.md", nd)] else [])) := by
  refine ⟨?_, ?_, ?_, ?_, ?_⟩
  · unfold start_task
    cases updateFirst name (fun t => { t with done := false, started_at := some now }) ts
    · intro hc; exact absurd hc (by simp)
    · exact fun _ => rfl
  · unfold start_task
    cases updateFirst name (fun t => { t with done := false, started_at := some now }) ts <;> rfl
  · unfold mark_task_done
    cases updateFirst name (fun t => { t with done := true, completed_at := some now }) ts
    · intro hc; exact absurd hc (by simp)
    · exact fun _ => rfl
  · unfold mark_task_done
    cases updateFirst name (fun t => { t with done := true, completed_at := some now }) ts <;> rfl
  · unfold toggle_task_status
    rcases toggleFirst now name ts with _ | ⟨ts2, nd⟩
    · intro hc; exact absurd hc (by simp)
    · exact fun _ => ⟨rfl, nd, rfl⟩

/-- C5 counterexample.  `sprint.md` exists on disk (and even disagrees with
the store), the start and complete operations match and persist the JSON —
yet neither makes a single Markdown Patcher call (`mdCalls = []`), while
toggle, on the same store and filesystem, does patch `sprint.md`. -/
theorem C5_counterexample :
    (start_task "t1" [⟨"A", true, none, none⟩] "A").matched = true ∧
    (start_task "t1" [⟨"A", true, none, none⟩] "A").savedJson = true ∧
    (start_task "t1" [⟨"A", true, none, none⟩] "A").mdCalls = [] ∧
    (mark_task_done "t1" [⟨"A", false, none, none⟩] "A").matched = true ∧
    (mark_task_done "t1" [⟨"A", false, none, none⟩] "A").mdCalls = [] ∧
    (toggle_task_status ['\n'] "t1" [⟨"A", true, none, none⟩]
        ⟨some "- [x] A\n".toList, none⟩ "A").mdCalls = [("sprint.md", false)] := by decide

/-- C5 witness: the theorem applied to a store with one matching task. -/
theorem C5_witness :
    (start_task "t1" [⟨"A", false, none, none⟩] "A").savedJson = true ∧
    (toggle_task_status ['\n'] "t1" [⟨"A", false, none, none⟩]
        ⟨none, none⟩ "A").savedJson = true :=
  ⟨(C5_only_toggle_patches_markdown "t1" [⟨"A", false, none, none⟩] "A" ['\n']
      ⟨none, none⟩).1 (by decide),
   ((C5_only_toggle_patches_markdown "t1" [⟨"A", false, none, none⟩] "A" ['\n']
      ⟨none, none⟩).2.2.2.2 (by decide)).1⟩

/-- C6 (amended).  `run_sprint` marks nothing done: the task list is
returned unchanged whatever the sprint name (the name is only printed in
the banner), and the JSON persister runs — with the unchanged list — iff
at least one unfinished task exists. -/
theorem C6_run_marks_nothing_done (ts : List Task) :
    (run_sprint ts).tasks = ts ∧
    ((run_sprint ts).savedJson = true ↔ ∃ t ∈ ts, t.done = false) := by
  refine ⟨rfl, ?_⟩
  unfold run_sprint
  simp [List.any_eq_true]

/-- C6 counterexample.  An unfinished task whose text contains the sprint
name as a substring — which both lineages of the claim would mark done —
is byte-identical (still `done = false`) after `run_sprint`; only the
(unchanged) store is persisted. -/
theorem C6_counterexample :
    containsSub "sprint7".toList "alpha sprint7 work".toList = true ∧
    (run_sprint [⟨"alpha sprint7 work", false, none, none⟩]).tasks =
      [⟨"alpha sprint7 work", false, none, none⟩] ∧
    (run_sprint [⟨"alpha sprint7 work", false, none, none⟩]).savedJson = true := by decide

/-- C6 witness: one unfinished task triggers the persister. -/
theorem C6_witness :
    (run_sprint [⟨"A", false, none, none⟩]).savedJson = true :=
  (C6_run_marks_nothing_done [⟨"A", false, none, none⟩]).2.mpr
    ⟨⟨"A", false, none, none⟩, List.mem_cons_self _ _, rfl⟩

/-- C7 (amended).  On a match, Complete always sets `done := true` and
overwrites `completed_at` with the current timestamp — also when the task
was already done, in which case the prior `completed_at` value is lost;
only the success report is unconditional.  The mutated task is the first
exact match in store order. -/
theorem C7_complete_overwrites_timestamp (now : String) (ts : List Task) (name : String)
    (h : (mark_task_done now ts name).matched = true) :
    ∃ i t, ts[i]? = some t ∧ t.task = name ∧
      (∀ j u, j < i → ts[j]? = some u → u.task ≠ name) ∧
      (mark_task_done now ts name).tasks =
        ts.set i { t with done := true, completed_at := some now } := by
  rcases hu : updateFirst name (fun t => { t with done := true, completed_at := some now }) ts
    with _ | ts2
  · rw [mark_task_done_matched, hu] at h
    exact absurd h (by simp)
  · obtain ⟨i, t, hi, hn, hfirst, hset⟩ := updateFirst_spec hu
    refine ⟨i, t, hi, hn, hfirst, ?_⟩
    unfold mark_task_done
    rw [hu, ← hset]

/-- C7 counterexample.  Completing the already-done task `"A"` (with
`completed_at = "t0"`) reports success but replaces `completed_at` by the
new timestamp `"t1"` — the operation is not a no-op on already-done
tasks. -/
theorem C7_counterexample :
    (mark_task_done "t1" [⟨"A", true, none, some "t0"⟩] "A").matched = true ∧
    (mark_task_done "t1" [⟨"A", true, none, some "t0"⟩] "A").tasks =
      [⟨"A", true, none, some "t1"⟩] ∧
    (mark_task_done "t1" [⟨"A", true, none, some "t0"⟩] "A").tasks ≠
      [⟨"A", true, none, some "t0"⟩] := by decide

/-- C7 witness: the theorem applied to an already-done task. -/
theorem C7_witness :
    ∃ i t, ([⟨"A", true, none, some "t0"⟩] : List Task)[i]? = some t ∧ t.task = "A" ∧
      (∀ j u, j < i → ([⟨"A", true, none, some "t0"⟩] : List Task)[j]? = some u →
        u.task ≠ "A") ∧
      (mark_task_done "t1" [⟨"A", true, none, some "t0"⟩] "A").tasks =
        [⟨"A", true, none, some "t0"⟩].set i { t with done := true, completed_at := some "t1" } :=
  C7_complete_overwrites_timestamp "t1" [⟨"A", true, none, some "t0"⟩] "A" (by decide)

/-- C8 (amended).  Parsing a Markdown file produces a Section marker for
each line whose stripped text is `##` or `###` followed by at least one
whitespace character and a nonempty remainder — `is_header` is true for
`##` and false for `###`, and the name is the remainder after the hashes
and the whitespace run, trimmed; a line such as `"##Foo"`, which begins
with `##` but has no whitespace after the hashes, yields no marker.  Every
parsed Task carries as its section the name of the nearest preceding
header in document order (`none` before any header): the program's linear
threading of `current_section` coincides with the spec's look-back
reading, rendered by `specItems`. -/
theorem C8_sections_nearest_preceding (bytes : List Char) :
    load_tasks_from_file_md bytes = specItems (splitNl (univNewlines bytes)) :=
  parseLines_eq_specItemsAux (splitNl (univNewlines bytes)) [] none rfl

/-- C8 witness: the equality instantiated on a two-header document. -/
theorem C8_witness :
    load_tasks_from_file_md "## A\n- [ ] t1\n### B\n- [x] t2".toList =
      specItems (splitNl (univNewlines "## A\n- [ ] t1\n### B\n- [x] t2".toList)) :=
  C8_sections_nearest_preceding "## A\n- [ ] t1\n### B\n- [x] t2".toList

/-- C8 counterexample.  The line `"##Foo"` begins with `##` but produces no
Section marker (the pattern requires whitespace after the hashes), so the
task below it keeps section `none` where the claim requires a marker named
`Foo`; a bare `"###"` line likewise produces nothing. -/
theorem C8_counterexample :
    load_tasks_from_file_md "##Foo\n- [ ] t".toList = [Item.task "t".toList false none] ∧
    load_tasks_from_file_md "###".toList = [] := by decide

theorem firstQualifyingJson_eq_none {entries : List (List Char × Option JVal)}
    (h : ∀ p ∈ entries, tryJsonFile p.2 = none) : firstQualifyingJson entries = none := by
  induction entries with
  | nil => rfl
  | cons p rest ih =>
    obtain ⟨nm, dec⟩ := p
    have hp : tryJsonFile dec = none := h (nm, dec) (List.mem_cons_self _ _)
    have hrest := ih (fun q hq => h q (List.mem_cons.2 (Or.inr hq)))
    rw [firstQualifyingJson]
    by_cases he : endsWithJson nm = true
    · rw [if_pos he, hp]
      exact hrest
    · rw [if_neg he]
      exact hrest

/-- C9 (amended).  The default task set is substituted exactly when the
loader returns `None`: when no `.json` file under `docs` qualifies and
neither `sprint.md` nor `todo.md` yields a task line.  But a qualifying
JSON file is returned even when it decodes to the empty array (the
`all(...)` check is vacuously true on `[]`), so such a file seeds an
*empty* store rather than the default set (see the counterexample). -/
theorem C9_default_only_without_source (e : Bool)
    (entries : List (List Char × Option JVal)) (sprintMd todoMd : Option (List Char))
    (hj : ∀ p ∈ entries, tryJsonFile p.2 = none)
    (hs : mdFileTasks sprintMd = []) (ht : mdFileTasks todoMd = []) :
    load_tasks_from_any_json_or_md e entries sprintMd todoMd = none ∧
    initialStore e entries sprintMd todoMd = defaultTasks := by
  have hload : load_tasks_from_any_json_or_md e entries sprintMd todoMd = none := by
    unfold load_tasks_from_any_json_or_md
    rw [firstQualifyingJson_eq_none hj, hs, ht]
    cases e <;> rfl
  refine ⟨hload, ?_⟩
  unfold initialStore
  rw [hload]
  rfl

/-- C9 counterexample.  A single `docs/a.json` decoding to the empty array
qualifies and is returned, so the session store is seeded with the empty
list — not with the (nonempty) built-in default task set — although no
source yielded a single item. -/
theorem C9_counterexample :
    initialStore true [("a.json".toList, some (JVal.arr []))] none none = [] ∧
    defaultTasks ≠ [] :=
  ⟨rfl, by simp [defaultTasks]⟩

/-- C9 witness: one unreadable JSON file, no markdown files. -/
theorem C9_witness :
    load_tasks_from_any_json_or_md true [("bad.json".toList, none)] none none = none ∧
    initialStore true [("bad.json".toList, none)] none none = defaultTasks :=
  C9_default_only_without_source true [("bad.json".toList, none)] none none
    (fun p hp => by rw [List.mem_singleton.1 hp]; rfl) rfl rfl

/-- C10 (confirmed).  `list_sprint_files` does not fail on a missing
`docs` directory: it prints exactly `[]`; and for every directory listing
its output is a syntactically valid JSON array of (escaped) filename
strings. -/
theorem C10_list_files_valid_json (e : Bool) (listing : List (List Char)) :
    (e = false → list_sprint_files e listing = "[]".toList) ∧
    JsonStrArray (list_sprint_files e listing) := by
  constructor
  · intro he
    subst he
    rfl
  · exact jsonStrArray_dump _

/-- C10 witness: a missing docs directory with a nonempty would-be
listing. -/
theorem C10_witness :
    list_sprint_files false ["sprint.json".toList, "notes.txt".toList] = "[]".toList :=
  (C10_list_files_valid_json false ["sprint.json".toList, "notes.txt".toList]).1 rfl

end Arcano
